import Mathlib

/-!
# Verification of the inventory manager's storage layer and shell

A shallow embedding of `src/inventory-manager.py`: the SQLite-backed
`InventoryDatabase` class (tables, `add_item`, `get_item`, `update_item`,
`delete_item`, `search_items`, `list_items`) and the `InventoryShell.do_add`
command handler.

Modelling conventions:
* The `items` SQL table is a list of `Item` records in rowid (= insertion)
  order, together with the AUTOINCREMENT sequence counter `nextId`
  (AUTOINCREMENT never reuses rowids, and the next rowid is one more than
  the largest ever allocated; SQLite starts at 1).
* `datetime.now().isoformat()` timestamps are modelled as natural numbers
  supplied explicitly to each mutating operation; the wall clock is assumed
  to be (weakly or strictly, per theorem hypothesis) monotone.
* SQL `LIKE` is modelled by `likeMatch`, with SQLite's default semantics:
  `%` matches any sequence, an underscore matches any single character, and
  ASCII letters compare case-insensitively.  A `NULL` description makes the
  `description LIKE ?` operand NULL, hence never satisfies the `WHERE`.
* Python `**kwargs` dictionaries are modelled as association lists of
  `String × FieldVal`; values are well-typed for their columns.
* Python's `str.split` (whitespace mode, with and without `maxsplit`) and
  `int()` are modelled on `List Char` by `splitWS`, `splitWSMax` and
  `parsePyInt` (`int()` is modelled for ASCII sign+digit literals with
  surrounding whitespace; Python's underscore separators and non-ASCII
  digits are not modelled, and no claim exercises them).
-/

namespace Inventory

/-! ## Characters: whitespace, digits, ASCII case folding -/

/-- Whitespace, as recognised by Python `str.split()` / `str.strip()`
(restricted to the ASCII whitespace characters that occur in command lines). -/
def isWS (c : Char) : Bool :=
  c == ' ' || c == '\t' || c == '\n' || c == '\r'

/-- ASCII lower-casing, as applied by SQLite's default `LIKE` comparison. -/
def lowerC (c : Char) : Char :=
  if 'A' ≤ c ∧ c ≤ 'Z' then Char.ofNat (c.toNat + 32) else c

/-! ## SQLite LIKE matching

`likeMatch p s` decides whether the whole string `s` matches the pattern
`p` under SQLite's default `LIKE` semantics: `%` matches any (possibly
empty) sequence, an underscore matches exactly one character, and ordinary
characters match up to ASCII case. -/

def likeMatch : List Char → List Char → Bool
  | [], s => s.isEmpty
  | c :: p, s =>
    if c = '%' then
      s.tails.any (fun s2 => likeMatch p s2)
    else
      match s with
      | [] => false
      | d :: s2 =>
        if c = '_' then likeMatch p s2
        else (lowerC c == lowerC d) && likeMatch p s2

/-! ## The data model -/

/-- One row of the `items` table. -/
structure Item where
  id : Nat
  name : String
  description : Option String
  location : Option String
  quantity : Int
  date_added : Nat
  last_modified : Nat
  deriving DecidableEq, Repr

/-- The persistent state owned by `InventoryDatabase`: the `items` table in
rowid order plus the AUTOINCREMENT counter for the next id.  (The
`categories` table is dead schema: no operation reads or writes it, so it
carries no state here.) -/
structure DB where
  items : List Item
  nextId : Nat
  deriving DecidableEq, Repr

/-- A freshly created database: empty table, first AUTOINCREMENT rowid 1. -/
def initDB : DB := { items := [], nextId := 1 }

/-! ## Storage-layer operations -/

/-- `InventoryDatabase.add_item`: INSERT a new row with both timestamps set
to the current instant; returns the updated state and `cursor.lastrowid`. -/
def add_item (db : DB) (name : String) (description : Option String)
    (location : Option String) (quantity : Int) (now : Nat) : DB × Nat :=
  let i := db.nextId
  ({ items := db.items ++
      [{ id := i, name := name, description := description,
         location := location, quantity := quantity,
         date_added := now, last_modified := now }],
     nextId := db.nextId + 1 }, i)

/-- `InventoryDatabase.get_item`: `SELECT * FROM items WHERE id = ?` with
`fetchone()` — the first row (in rowid order) with the given id, if any. -/
def get_item (db : DB) (item_id : Nat) : Option Item :=
  db.items.find? (fun it => it.id == item_id)

/-- A value supplied for a column in `update_item`'s `**kwargs`:
a string, SQL NULL (Python `None`), or an integer. -/
inductive FieldVal where
  | vStr : String → FieldVal
  | vNone : FieldVal
  | vInt : Int → FieldVal
  deriving DecidableEq, Repr

/-- The `allowed_fields` set of `update_item`. -/
def allowedField (k : String) : Bool :=
  k == "name" || k == "description" || k == "location" || k == "quantity"

/-- Assignment of one `SET` column.  Values are well-typed for their columns
(the claims never supply an ill-typed value; SQLite's flexible typing and
the NOT NULL violation on `name = NULL` are outside this model). -/
def applyField (it : Item) (k : String) (v : FieldVal) : Item :=
  if k = "name" then
    match v with
    | FieldVal.vStr s => { it with name := s }
    | _ => it
  else if k = "description" then
    match v with
    | FieldVal.vStr s => { it with description := some s }
    | FieldVal.vNone => { it with description := none }
    | _ => it
  else if k = "location" then
    match v with
    | FieldVal.vStr s => { it with location := some s }
    | FieldVal.vNone => { it with location := none }
    | _ => it
  else if k = "quantity" then
    match v with
    | FieldVal.vInt n => { it with quantity := n }
    | _ => it
  else it

/-- Application of the whole `SET` clause to one row: all supplied allowed
fields, then `last_modified = <now>` (the key `update_item` appends). -/
def setFields (it : Item) (upd : List (String × FieldVal)) (now : Nat) : Item :=
  { upd.foldl (fun a kv => applyField a kv.1 kv.2) it with last_modified := now }

/-- `InventoryDatabase.update_item`: filter `kwargs` to the allowed fields;
if nothing remains return `False` without touching the table; otherwise add
`last_modified` and run `UPDATE items SET ... WHERE id = ?`, then return
`True` (the affected-row count is not consulted). -/
def update_item (db : DB) (item_id : Nat) (kwargs : List (String × FieldVal))
    (now : Nat) : DB × Bool :=
  let updates := kwargs.filter (fun kv => allowedField kv.1)
  if updates.isEmpty then (db, false)
  else
    ({ db with items :=
        db.items.map (fun it => if it.id = item_id then setFields it updates now else it) },
     true)

/-- `InventoryDatabase.delete_item`: `DELETE FROM items WHERE id = ?`,
returning `cursor.rowcount > 0`. -/
def delete_item (db : DB) (item_id : Nat) : DB × Bool :=
  let rowcount := (db.items.filter (fun it => it.id == item_id)).length
  ({ db with items := db.items.filter (fun it => !(it.id == item_id)) },
   decide (0 < rowcount))

/-- The pattern `'%' + search_term + '%'` that `search_items` binds to both
`LIKE` placeholders. -/
def likePattern (term : String) : List Char :=
  '%' :: (term.data ++ ['%'])

/-- The `WHERE name LIKE ? OR description LIKE ?` predicate of one row.
A NULL `description` makes its operand NULL, which never satisfies the
filter on its own. -/
def rowMatches (term : String) (it : Item) : Bool :=
  likeMatch (likePattern term) it.name.data ||
    (match it.description with
     | some d => likeMatch (likePattern term) d.data
     | none => false)

/-- `InventoryDatabase.search_items`: all rows matching the `LIKE` filter,
in rowid (insertion) order, via `fetchall()`. -/
def search_items (db : DB) (term : String) : List Item :=
  db.items.filter (rowMatches term)

/-- `InventoryDatabase.list_items`: `SELECT * FROM items`, all rows in
rowid order. -/
def list_items (db : DB) : List Item :=
  db.items

/-! ## Python `str.split` (whitespace mode)

`splitWS` is `arg.split()`: maximal runs of non-whitespace characters, in
order.  `splitWSMax n` is `arg.split(maxsplit=n)`: after `n` tokens have
been extracted, CPython skips any whitespace and the *entire* remaining
text (including any later whitespace) becomes one final element. -/

theorem length_dropWhile_le (p : Char → Bool) (s : List Char) :
    (s.dropWhile p).length ≤ s.length :=
  (List.dropWhile_suffix p).length_le

def splitWS : List Char → List (List Char)
  | [] => []
  | c :: s =>
    if isWS c then splitWS s
    else (c :: s.takeWhile (fun d => !isWS d)) :: splitWS (s.dropWhile (fun d => !isWS d))
termination_by s => s.length
decreasing_by
  all_goals simp_wf
  all_goals simp [Nat.lt_succ_iff, length_dropWhile_le]

def splitWSMax : Nat → List Char → List (List Char)
  | _, [] => []
  | 0, c :: s => if isWS c then splitWSMax 0 s else [c :: s]
  | n + 1, c :: s =>
    if isWS c then splitWSMax (n + 1) s
    else (c :: s.takeWhile (fun d => !isWS d)) :: splitWSMax n (s.dropWhile (fun d => !isWS d))
termination_by _ s => s.length
decreasing_by
  all_goals simp_wf
  all_goals simp [Nat.lt_succ_iff, length_dropWhile_le]

/-! ## Python `int()` on strings -/

/-- Python `str.strip()` restricted to ASCII whitespace: remove leading and
trailing whitespace. -/
def trimWS (s : List Char) : List Char :=
  ((s.dropWhile isWS).reverse.dropWhile isWS).reverse

/-- Value of a base-10 ASCII digit string. -/
def natOfDigits (ds : List Char) : Nat :=
  ds.foldl (fun a c => 10 * a + (c.toNat - 48)) 0

/-- Python `int(s)` on a string: strip surrounding whitespace, then an
optional sign followed by a nonempty run of digits; anything else raises
`ValueError`, modelled as `none`.  (ASCII digit literals only: Python's
underscore digit separators and non-ASCII digits are not modelled.) -/
def parsePyInt (s : List Char) : Option Int :=
  match trimWS s with
  | [] => none
  | c :: ds =>
    if c = '+' then
      if ds ≠ [] ∧ ds.all Char.isDigit then some ((natOfDigits ds : Nat) : Int) else none
    else if c = '-' then
      if ds ≠ [] ∧ ds.all Char.isDigit then some (-((natOfDigits ds : Nat) : Int)) else none
    else if (c :: ds).all Char.isDigit then some ((natOfDigits (c :: ds) : Nat) : Int)
    else none

/-! ## The shell's `add` command -/

/-- The quantity actually stored by `do_add`: `args[3]` if present is parsed
with `int()`, falling back to `1` on `ValueError`; an absent `args[3]`
leaves the initial `1` (on which `int` is the identity). -/
def qtyArg : Option (List Char) → Int
  | none => 1
  | some q =>
    match parsePyInt q with
    | some n => n
    | none => 1

/-- `InventoryShell.do_add`: tokenize with `arg.split(maxsplit=3)`; with no
tokens print an error and write nothing (result `none`); otherwise call
`add_item` with name `args[0]`, optional description `args[1]`, optional
location `args[2]` and the parsed quantity, and print the new id (result
`some id`).  (`cmd.Cmd` hands `do_add` the already-stripped argument
text.) -/
def do_add (db : DB) (arg : String) (now : Nat) : DB × Option Nat :=
  match splitWSMax 3 arg.data with
  | [] => (db, none)
  | a0 :: rest =>
    let r := add_item db (String.mk a0) ((rest.get? 0).map String.mk)
      ((rest.get? 1).map String.mk) (qtyArg (rest.get? 2)) now
    (r.1, some r.2)

/-! ## Operation traces

For lifetime properties (monotone ids, the timestamp invariant) we run the
store through an arbitrary sequence of mutating operations, each paired
with the wall-clock instant at which it executes. -/

inductive Op where
  | add (name : String) (description : Option String)
      (location : Option String) (quantity : Int)
  | update (item_id : Nat) (kwargs : List (String × FieldVal))
  | delete (item_id : Nat)

/-- The state after one operation. -/
def step (db : DB) (op : Op) (now : Nat) : DB :=
  match op with
  | Op.add n d l q => (add_item db n d l q now).1
  | Op.update i kw => (update_item db i kw now).1
  | Op.delete i => (delete_item db i).1

/-- The state after a timed trace of operations. -/
def run (db : DB) : List (Op × Nat) → DB
  | [] => db
  | (op, t) :: tr => run (step db op t) tr

/-- The ids handed back by the `add` operations of a trace, in order. -/
def runIds (db : DB) : List (Op × Nat) → List Nat
  | [] => []
  | (op, t) :: tr =>
    match op with
    | Op.add n d l q =>
      (add_item db n d l q t).2 :: runIds (add_item db n d l q t).1 tr
    | _ => runIds (step db op t) tr

/-! ## Basic lemmas -/

theorem beq_id_eq_false_of_lt {a b : Nat} (h : a < b) : (a == b) = false := by
  simp [Nat.ne_of_lt h]

/-! ## Claim C1: update's success value -/

/-- C1 counterexample: a non-empty field mapping whose only key, `color`,
is outside the allowed set makes `update_item` return `False`, although
the claim promises `True` for every non-empty mapping. -/
theorem update_nonempty_returns_false_cex :
    (update_item initDB 1 [("color", FieldVal.vInt 3)] 5).2 = false ∧
    ([("color", FieldVal.vInt 3)] : List (String × FieldVal)) ≠ [] := by
  decide

/-- C1 (amended): `update_item` returns `False` and performs no write
exactly when the supplied mapping contains no allowed field (in particular
when it is empty, but also when every supplied field is dropped); when at
least one allowed field is supplied it returns `True` regardless of
whether the target id exists. -/
theorem update_item_success_iff_allowed (db : DB) (item_id : Nat)
    (kwargs : List (String × FieldVal)) (now : Nat) :
    (kwargs.filter (fun kv => allowedField kv.1) = [] →
      update_item db item_id kwargs now = (db, false)) ∧
    (kwargs.filter (fun kv => allowedField kv.1) ≠ [] →
      (update_item db item_id kwargs now).2 = true) := by
  constructor
  · intro h
    simp [update_item, h]
  · intro h
    simp [update_item, List.isEmpty_iff, h]

/-- C1 witness: both branches of the amended statement at concrete inputs. -/
theorem update_item_success_iff_allowed_witness :
    (update_item initDB 7 [("color", FieldVal.vInt 3)] 5 = (initDB, false)) ∧
    (update_item initDB 7 [("quantity", FieldVal.vInt 2)] 5).2 = true :=
  ⟨(update_item_success_iff_allowed initDB 7 [("color", FieldVal.vInt 3)] 5).1 (by decide),
   (update_item_success_iff_allowed initDB 7 [("quantity", FieldVal.vInt 2)] 5).2 (by decide)⟩

/-! ## Claim C3: add followed by get -/

/-- C3: after `add_item`, `get_item` at the returned id yields a record
whose payload fields are exactly the supplied inputs and whose
`date_added` equals its `last_modified`.  The hypothesis — every stored id
is below the AUTOINCREMENT counter — holds in every reachable state. -/
theorem add_get_roundtrip (db : DB) (n : String) (d l : Option String)
    (q : Int) (now : Nat) (hids : ∀ it ∈ db.items, it.id < db.nextId) :
    ∃ it, get_item (add_item db n d l q now).1 (add_item db n d l q now).2 = some it ∧
      it.name = n ∧ it.description = d ∧ it.location = l ∧ it.quantity = q ∧
      it.date_added = it.last_modified := by
  have h1 : db.items.find? (fun it => it.id == db.nextId) = none := by
    rw [List.find?_eq_none]
    intro it hmem
    simp [Nat.ne_of_lt (hids it hmem)]
  refine ⟨{ id := db.nextId, name := n, description := d, location := l,
            quantity := q, date_added := now, last_modified := now },
          ?_, rfl, rfl, rfl, rfl, rfl⟩
  simp [get_item, add_item, List.find?_append, h1]

/-- C3 witness: the round trip on a concrete store. -/
theorem add_get_roundtrip_witness :
    ∃ it,
      get_item (add_item initDB "Hammer" (some "Claw hammer") (some "Shelf A") 3 7).1
          (add_item initDB "Hammer" (some "Claw hammer") (some "Shelf A") 3 7).2 = some it ∧
      it.name = "Hammer" ∧ it.description = some "Claw hammer" ∧
      it.location = some "Shelf A" ∧ it.quantity = 3 ∧
      it.date_added = it.last_modified :=
  add_get_roundtrip initDB "Hammer" (some "Claw hammer") (some "Shelf A") 3 7 (by decide)

/-! ## Claim C4: delete's success value and effect -/

/-- C4: `delete_item` returns `True` iff a row with the id existed (and was
removed); afterwards `get_item` finds nothing and a second `delete_item`
of the same id returns `False`. -/
theorem delete_spec (db : DB) (item_id : Nat) :
    ((delete_item db item_id).2 = true ↔ ∃ it ∈ db.items, it.id = item_id) ∧
    get_item (delete_item db item_id).1 item_id = none ∧
    (delete_item (delete_item db item_id).1 item_id).2 = false := by
  refine ⟨?_, ?_, ?_⟩
  · simp [delete_item, List.length_pos, List.filter_eq_nil_iff]
  · rw [get_item, List.find?_eq_none]
    intro it hmem
    simp only [delete_item] at hmem
    have := (List.mem_filter.mp hmem).2
    simpa using this
  · simp [delete_item, List.filter_filter]

/-! ## SET-clause lemmas: which columns an update can touch -/

theorem applyField_id (it : Item) (k : String) (v : FieldVal) :
    (applyField it k v).id = it.id := by
  unfold applyField
  repeat' split
  all_goals rfl

theorem applyField_date_added (it : Item) (k : String) (v : FieldVal) :
    (applyField it k v).date_added = it.date_added := by
  unfold applyField
  repeat' split
  all_goals rfl

theorem foldl_applyField_id (upd : List (String × FieldVal)) (it : Item) :
    (upd.foldl (fun a kv => applyField a kv.1 kv.2) it).id = it.id := by
  induction upd generalizing it with
  | nil => rfl
  | cons kv upd ih => rw [List.foldl_cons, ih, applyField_id]

theorem foldl_applyField_date_added (upd : List (String × FieldVal)) (it : Item) :
    (upd.foldl (fun a kv => applyField a kv.1 kv.2) it).date_added = it.date_added := by
  induction upd generalizing it with
  | nil => rfl
  | cons kv upd ih => rw [List.foldl_cons, ih, applyField_date_added]

theorem setFields_id (it : Item) (upd : List (String × FieldVal)) (now : Nat) :
    (setFields it upd now).id = it.id :=
  foldl_applyField_id upd it

theorem setFields_date_added (it : Item) (upd : List (String × FieldVal)) (now : Nat) :
    (setFields it upd now).date_added = it.date_added :=
  foldl_applyField_date_added upd it

theorem setFields_last_modified (it : Item) (upd : List (String × FieldVal)) (now : Nat) :
    (setFields it upd now).last_modified = now :=
  rfl

/-- `find?` by id commutes with an id-preserving rewrite of the rows whose
id matches: exactly what `UPDATE ... WHERE id = ?` followed by
`SELECT ... WHERE id = ?` does. -/
theorem find?_map_targeted (l : List Item) (i : Nat) (g : Item → Item)
    (hg : ∀ it, (g it).id = it.id) :
    (l.map (fun it => if it.id = i then g it else it)).find? (fun it => it.id == i) =
      (l.find? (fun it => it.id == i)).map g := by
  induction l with
  | nil => rfl
  | cons a l ih =>
    by_cases h : a.id = i
    · simp [List.find?_cons, h, hg]
    · simp [List.find?_cons, h, ih]

/-! ## Claim C9: frame conditions of update and delete -/

/-- C9: `update_item` leaves every row at a position holding an id other
than the target untouched, never changes any row's `id` or `date_added`,
and `delete_item` preserves (exactly) the rows whose id differs from the
argument. -/
theorem update_delete_frame (db : DB) (i : Nat)
    (kwargs : List (String × FieldVal)) (now : Nat) :
    (∀ (j : Nat) (it : Item), db.items[j]? = some it → it.id ≠ i →
       (update_item db i kwargs now).1.items[j]? = some it) ∧
    (∀ (j : Nat) (it : Item), db.items[j]? = some it →
       ∃ it2, (update_item db i kwargs now).1.items[j]? = some it2 ∧
         it2.id = it.id ∧ it2.date_added = it.date_added) ∧
    (∀ it : Item, it.id ≠ i → (it ∈ (delete_item db i).1.items ↔ it ∈ db.items)) := by
  refine ⟨?_, ?_, ?_⟩
  · intro j it hj hne
    simp only [update_item]
    split
    · exact hj
    · simp [List.getElem?_map, hj, hne]
  · intro j it hj
    simp only [update_item]
    split
    · exact ⟨it, hj, rfl, rfl⟩
    · by_cases h : it.id = i
      · refine ⟨setFields it (kwargs.filter fun kv => allowedField kv.1) now, ?_,
          setFields_id _ _ _, setFields_date_added _ _ _⟩
        simp [List.getElem?_map, hj, h]
      · exact ⟨it, by simp [List.getElem?_map, hj, h], rfl, rfl⟩
  · intro it hne
    simp [delete_item, List.mem_filter, hne]

/-- C9 witness: the three frame facts on a concrete two-row store. -/
theorem update_delete_frame_witness :
    ((update_item (DB.mk [Item.mk 1 "A" none none 1 0 0, Item.mk 2 "B" none none 1 0 0] 3)
        2 [("name", FieldVal.vStr "N")] 9).1.items[0]? =
      some (Item.mk 1 "A" none none 1 0 0)) ∧
    (∃ it2, (update_item (DB.mk [Item.mk 1 "A" none none 1 0 0, Item.mk 2 "B" none none 1 0 0] 3)
        2 [("name", FieldVal.vStr "N")] 9).1.items[1]? = some it2 ∧
      it2.id = (Item.mk 2 "B" none none 1 0 0).id ∧
      it2.date_added = (Item.mk 2 "B" none none 1 0 0).date_added) ∧
    ((Item.mk 1 "A" none none 1 0 0) ∈
        (delete_item (DB.mk [Item.mk 1 "A" none none 1 0 0, Item.mk 2 "B" none none 1 0 0] 3) 2).1.items ↔
      (Item.mk 1 "A" none none 1 0 0) ∈
        (DB.mk [Item.mk 1 "A" none none 1 0 0, Item.mk 2 "B" none none 1 0 0] 3).items) :=
  ⟨(update_delete_frame (DB.mk [Item.mk 1 "A" none none 1 0 0, Item.mk 2 "B" none none 1 0 0] 3)
      2 [("name", FieldVal.vStr "N")] 9).1 0 (Item.mk 1 "A" none none 1 0 0) rfl (by decide),
   (update_delete_frame (DB.mk [Item.mk 1 "A" none none 1 0 0, Item.mk 2 "B" none none 1 0 0] 3)
      2 [("name", FieldVal.vStr "N")] 9).2.1 1 (Item.mk 2 "B" none none 1 0 0) rfl,
   (update_delete_frame (DB.mk [Item.mk 1 "A" none none 1 0 0, Item.mk 2 "B" none none 1 0 0] 3)
      2 [("name", FieldVal.vStr "N")] 9).2.2 (Item.mk 1 "A" none none 1 0 0) (by decide)⟩

/-! ## Claim C6: updating the quantity of an existing item -/

/-- C6: on an existing id, `update_item` with `quantity = 5` followed by
`get_item` shows quantity 5 and a strictly larger `last_modified`,
provided the wall clock has strictly advanced past the row's previous
modification instant. -/
theorem update_quantity_get (db : DB) (i : Nat) (now : Nat) (it0 : Item)
    (h : get_item db i = some it0) (hclock : it0.last_modified < now) :
    ∃ it1, get_item (update_item db i [("quantity", FieldVal.vInt 5)] now).1 i = some it1 ∧
      it1.quantity = 5 ∧ it0.last_modified < it1.last_modified := by
  have hfilter : ([("quantity", FieldVal.vInt 5)].filter fun kv => allowedField kv.1) =
      [("quantity", FieldVal.vInt 5)] := rfl
  refine ⟨setFields it0 [("quantity", FieldVal.vInt 5)] now, ?_, ?_, ?_⟩
  · unfold update_item
    rw [hfilter]
    simp only [List.isEmpty_cons, if_false, Bool.false_eq_true]
    unfold get_item at h ⊢
    simp only
    rw [find?_map_targeted _ _ _ (fun it => setFields_id it _ _), h]
    rfl
  · rfl
  · simpa [setFields_last_modified] using hclock

/-! ## Claim C5: the timestamp invariant along any trace -/

/-- The inductive invariant: every stored row was added no later than it
was last modified, and was last modified no later than the instant `t`. -/
def TimeInv (db : DB) (t : Nat) : Prop :=
  ∀ it ∈ db.items, it.date_added ≤ it.last_modified ∧ it.last_modified ≤ t

theorem timeInv_mono {db : DB} {t t2 : Nat} (h : TimeInv db t) (htt : t ≤ t2) :
    TimeInv db t2 :=
  fun it hm => ⟨(h it hm).1, Nat.le_trans (h it hm).2 htt⟩

theorem timeInv_step {db : DB} {t t2 : Nat} (op : Op)
    (h : TimeInv db t) (htt : t ≤ t2) : TimeInv (step db op t2) t2 := by
  cases op with
  | add n d l q =>
    intro it hm
    simp only [step, add_item, List.mem_append, List.mem_singleton] at hm
    rcases hm with hm | hm
    · exact ⟨(h it hm).1, Nat.le_trans (h it hm).2 htt⟩
    · subst hm
      exact ⟨Nat.le_refl _, Nat.le_refl _⟩
  | update i kw =>
    simp only [step, update_item]
    split
    · exact timeInv_mono h htt
    · intro it hm
      simp only [List.mem_map] at hm
      obtain ⟨a, ha, rfl⟩ := hm
      split
      · refine ⟨?_, Nat.le_refl _⟩
        rw [setFields_last_modified, setFields_date_added]
        exact Nat.le_trans (h a ha).1 (Nat.le_trans (h a ha).2 htt)
      · exact ⟨(h a ha).1, Nat.le_trans (h a ha).2 htt⟩
  | delete i =>
    intro it hm
    simp only [step, delete_item, List.mem_filter] at hm
    exact ⟨(h it hm.1).1, Nat.le_trans (h it hm.1).2 htt⟩

theorem timeInv_run : ∀ (tr : List (Op × Nat)) (db : DB) (t0 : Nat),
    TimeInv db t0 → List.Chain (· ≤ ·) t0 (tr.map Prod.snd) →
    ∃ t1, TimeInv (run db tr) t1 := by
  intro tr
  induction tr with
  | nil => exact fun db t0 h _ => ⟨t0, h⟩
  | cons head tr ih =>
    obtain ⟨op, t⟩ := head
    intro db t0 h hchain
    rw [List.map_cons, List.chain_cons] at hchain
    exact ih (step db op t) t (timeInv_step op h hchain.1) hchain.2

/-- C5: starting from a fresh store, after any chronologically ordered
trace of add/update/delete operations every stored item satisfies
`date_added ≤ last_modified`. -/
theorem last_modified_ge_date_added (tr : List (Op × Nat))
    (hchron : List.Chain (· ≤ ·) 0 (tr.map Prod.snd)) :
    ∀ it ∈ (run initDB tr).items, it.date_added ≤ it.last_modified := by
  obtain ⟨t1, h⟩ := timeInv_run tr initDB 0 (by intro it hm; simp [initDB] at hm) hchron
  exact fun it hm => (h it hm).1

/-- C5 witness: a concrete add/update/delete trace, checked on the row it
leaves behind. -/
theorem last_modified_ge_date_added_witness :
    (Item.mk 1 "x" none none 2 1 3).date_added ≤
      (Item.mk 1 "x" none none 2 1 3).last_modified :=
  last_modified_ge_date_added
    [(Op.add "x" none none 1, 1), (Op.update 1 [("quantity", FieldVal.vInt 2)], 3),
     (Op.delete 5, 4)] (by simp [List.chain_cons])
    (Item.mk 1 "x" none none 2 1 3) (by decide)

/-! ## Claim C7: ids are unique and strictly increasing -/

theorem step_nextId_le (db : DB) (op : Op) (t : Nat) :
    db.nextId ≤ (step db op t).nextId := by
  cases op with
  | add n d l q => exact Nat.le_succ _
  | update i kw =>
    simp only [step, update_item]
    split
    · exact Nat.le_refl _
    · exact Nat.le_refl _
  | delete i => exact Nat.le_refl _

theorem runIds_lb : ∀ (tr : List (Op × Nat)) (db : DB) (i : Nat),
    i ∈ runIds db tr → db.nextId ≤ i := by
  intro tr
  induction tr with
  | nil =>
    intro db i h
    simp [runIds] at h
  | cons head tr ih =>
    obtain ⟨op, t⟩ := head
    intro db i h
    cases op with
    | add n d l q =>
      rcases List.mem_cons.mp h with h | h
      · exact Nat.le_of_eq h.symm
      · have h2 := ih (add_item db n d l q t).1 i h
        have h3 : (add_item db n d l q t).1.nextId = db.nextId + 1 := rfl
        omega
    | update j kw =>
      exact Nat.le_trans (step_nextId_le db (Op.update j kw) t)
        (ih (step db (Op.update j kw) t) i h)
    | delete j =>
      exact Nat.le_trans (step_nextId_le db (Op.delete j) t)
        (ih (step db (Op.delete j) t) i h)

theorem runIds_sorted : ∀ (tr : List (Op × Nat)) (db : DB),
    List.Sorted (· < ·) (runIds db tr) := by
  intro tr
  induction tr with
  | nil =>
    intro db
    simp [runIds]
  | cons head tr ih =>
    obtain ⟨op, t⟩ := head
    intro db
    cases op with
    | add n d l q =>
      rw [show runIds db ((Op.add n d l q, t) :: tr) =
        db.nextId :: runIds (add_item db n d l q t).1 tr from rfl, List.sorted_cons]
      refine ⟨?_, ih _⟩
      intro b hb
      have h2 := runIds_lb tr (add_item db n d l q t).1 b hb
      have h3 : (add_item db n d l q t).1.nextId = db.nextId + 1 := rfl
      omega
    | update j kw => exact ih _
    | delete j => exact ih _

/-- C7: over a whole lifetime of the store (any trace from the fresh
state), the ids returned by `add` are strictly increasing — each is
strictly above every earlier one — and therefore never repeat, even after
the row holding an id has been deleted (the AUTOINCREMENT counter never
decreases). -/
theorem add_ids_strictly_increasing (tr : List (Op × Nat)) :
    List.Sorted (· < ·) (runIds initDB tr) ∧ (runIds initDB tr).Nodup :=
  ⟨runIds_sorted tr initDB, (runIds_sorted tr initDB).nodup⟩

/-! ## Tokenization lemmas for the shell -/

theorem splitWS_nil : splitWS [] = [] := by
  simp [splitWS]

theorem splitWS_cons (c : Char) (s : List Char) :
    splitWS (c :: s) =
      if isWS c then splitWS s
      else (c :: s.takeWhile (fun d => !isWS d)) :: splitWS (s.dropWhile (fun d => !isWS d)) := by
  simp [splitWS]

theorem splitWSMax_nil (n : Nat) : splitWSMax n [] = [] := by
  cases n <;> simp [splitWSMax]

theorem splitWSMax_zero_cons (c : Char) (s : List Char) :
    splitWSMax 0 (c :: s) = if isWS c then splitWSMax 0 s else [c :: s] := by
  simp [splitWSMax]

theorem splitWSMax_succ_cons (n : Nat) (c : Char) (s : List Char) :
    splitWSMax (n + 1) (c :: s) =
      if isWS c then splitWSMax (n + 1) s
      else (c :: s.takeWhile (fun d => !isWS d)) :: splitWSMax n (s.dropWhile (fun d => !isWS d)) := by
  simp [splitWSMax]

theorem splitWS_eq_nil_iff : ∀ s : List Char,
    (splitWS s = [] ↔ ∀ c ∈ s, isWS c = true) := by
  intro s
  induction s with
  | nil => simp [splitWS_nil]
  | cons c s ih =>
    rw [splitWS_cons]
    by_cases hc : isWS c = true
    · rw [if_pos hc, ih]
      simp [hc]
    · rw [if_neg hc]
      simp only [List.mem_cons]
      constructor
      · intro h
        exact absurd h (List.cons_ne_nil _ _)
      · intro h
        exact absurd (h c (Or.inl rfl)) hc

theorem splitWSMax_eq_nil_iff : ∀ (s : List Char) (n : Nat),
    (splitWSMax n s = [] ↔ ∀ c ∈ s, isWS c = true) := by
  intro s
  induction s with
  | nil => intro n; simp [splitWSMax_nil]
  | cons c s ih =>
    intro n
    by_cases hc : isWS c = true
    · cases n with
      | zero => rw [splitWSMax_zero_cons, if_pos hc, ih 0]; simp [hc]
      | succ n => rw [splitWSMax_succ_cons, if_pos hc, ih (n + 1)]; simp [hc]
    · cases n with
      | zero =>
        rw [splitWSMax_zero_cons, if_neg hc]
        simp only [List.mem_cons]
        exact ⟨fun h => absurd h (List.cons_ne_nil _ _),
               fun h => absurd (h c (Or.inl rfl)) hc⟩
      | succ n =>
        rw [splitWSMax_succ_cons, if_neg hc]
        simp only [List.mem_cons]
        exact ⟨fun h => absurd h (List.cons_ne_nil _ _),
               fun h => absurd (h c (Or.inl rfl)) hc⟩

/-- Stepping lemma: when the full split has a first token, the
`maxsplit` split peels off the same token and continues, with one unit
of `maxsplit` budget spent, on a suffix of the input. -/
theorem split_head : ∀ (s t : List Char) (ts : List (List Char)) (n : Nat),
    splitWS s = t :: ts →
    ∃ r, r <:+ s ∧ splitWS r = ts ∧ splitWSMax (n + 1) s = t :: splitWSMax n r := by
  intro s
  induction s with
  | nil =>
    intro t ts n h
    rw [splitWS_nil] at h
    exact absurd h.symm (List.cons_ne_nil _ _)
  | cons c s ih =>
    intro t ts n h
    by_cases hc : isWS c = true
    · rw [splitWS_cons, if_pos hc] at h
      obtain ⟨r, hr, h2, h3⟩ := ih t ts n h
      exact ⟨r, hr.trans (List.suffix_cons c s), h2,
        by rw [splitWSMax_succ_cons, if_pos hc, h3]⟩
    · rw [splitWS_cons, if_neg hc] at h
      injection h with h1 h2
      refine ⟨s.dropWhile (fun d => !isWS d),
        (List.dropWhile_suffix _).trans (List.suffix_cons c s), h2, ?_⟩
      rw [splitWSMax_succ_cons, if_neg hc, h1]

/-- With the `maxsplit` budget exhausted, CPython skips whitespace and the
whole remaining text becomes one element; its own full split is unchanged
and it starts with a non-whitespace character. -/
theorem splitWSMax_zero_spec : ∀ (s t : List Char) (ts : List (List Char)),
    splitWS s = t :: ts →
    ∃ r c r2, r = c :: r2 ∧ isWS c = false ∧ r <:+ s ∧
      splitWSMax 0 s = [r] ∧ splitWS r = t :: ts := by
  intro s
  induction s with
  | nil =>
    intro t ts h
    rw [splitWS_nil] at h
    exact absurd h.symm (List.cons_ne_nil _ _)
  | cons c s ih =>
    intro t ts h
    by_cases hc : isWS c = true
    · rw [splitWS_cons, if_pos hc] at h
      obtain ⟨r, c2, r2, h1, h2, h3, h4, h5⟩ := ih t ts h
      exact ⟨r, c2, r2, h1, h2, h3.trans (List.suffix_cons c s),
        by rw [splitWSMax_zero_cons, if_pos hc, h4], h5⟩
    · refine ⟨c :: s, c, s, rfl, Bool.eq_false_iff.mpr hc, List.suffix_refl _,
        by rw [splitWSMax_zero_cons, if_neg hc], h⟩

/-! ## Internal whitespace makes `int()` fail -/

theorem isWS_eq_false_of_isDigit (c : Char) (h : c.isDigit = true) :
    isWS c = false := by
  simp only [isWS, Bool.or_eq_false_iff, beq_eq_false_iff_ne]
  refine ⟨⟨⟨?_, ?_⟩, ?_⟩, ?_⟩ <;> (rintro rfl; exact absurd h (by decide))

/-- A successful `int()` parse leaves no whitespace inside the stripped
string: it is a sign character followed by digits. -/
theorem parsePyInt_no_inner_ws (s : List Char) (m : Int)
    (hp : parsePyInt s = some m) : ∀ c ∈ trimWS s, isWS c = false := by
  intro c hc
  cases htr : trimWS s with
  | nil => rw [htr] at hc; exact absurd hc (List.not_mem_nil c)
  | cons c0 ds =>
    simp only [parsePyInt, htr] at hp
    rw [htr] at hc
    rcases List.mem_cons.mp hc with rfl | hcds
    · by_cases h0 : c = '+'
      · subst h0; rfl
      · by_cases h1 : c = '-'
        · subst h1; rfl
        · rw [if_neg h0, if_neg h1] at hp
          split at hp
          · next hdig =>
            exact isWS_eq_false_of_isDigit c
              (List.all_eq_true.mp hdig c (List.mem_cons_self c ds))
          · exact absurd hp (by simp)
    · by_cases h0 : c0 = '+'
      · rw [if_pos h0] at hp
        split at hp
        · next hdig =>
          exact isWS_eq_false_of_isDigit c (List.all_eq_true.mp hdig.2 c hcds)
        · exact absurd hp (by simp)
      · by_cases h1 : c0 = '-'
        · rw [if_neg h0, if_pos h1] at hp
          split at hp
          · next hdig =>
            exact isWS_eq_false_of_isDigit c (List.all_eq_true.mp hdig.2 c hcds)
          · exact absurd hp (by simp)
        · rw [if_neg h0, if_neg h1] at hp
          split at hp
          · next hdig =>
            exact isWS_eq_false_of_isDigit c
              (List.all_eq_true.mp hdig c (List.mem_cons_of_mem c0 hcds))
          · exact absurd hp (by simp)

theorem parsePyInt_eq_none_of_ws (s : List Char)
    (h : ∃ c ∈ trimWS s, isWS c = true) : parsePyInt s = none := by
  cases hp : parsePyInt s with
  | none => rfl
  | some m =>
    obtain ⟨c, hc, hcw⟩ := h
    rw [parsePyInt_no_inner_ws s m hp c hc] at hcw
    exact absurd hcw (by simp)

/-! ## Stripping whitespace does not change the token list -/

theorem splitWS_dropWhile : ∀ s : List Char,
    splitWS (s.dropWhile isWS) = splitWS s := by
  intro s
  induction s with
  | nil => rfl
  | cons c s ih =>
    by_cases hc : isWS c = true
    · rw [List.dropWhile_cons_of_pos hc, ih, splitWS_cons, if_pos hc]
    · rw [List.dropWhile_cons_of_neg (by simp [hc])]

theorem takeWhile_append_ws (w : List Char) (hw : ∀ c ∈ w, isWS c = true) :
    ∀ s : List Char,
      (s ++ w).takeWhile (fun d => !isWS d) = s.takeWhile (fun d => !isWS d) := by
  intro s
  induction s with
  | nil =>
    cases w with
    | nil => rfl
    | cons x w => simp [List.takeWhile_cons, hw x (List.mem_cons_self x w)]
  | cons c s ih =>
    rw [List.cons_append, List.takeWhile_cons, List.takeWhile_cons]
    by_cases hc : isWS c = true
    · simp [hc]
    · simp [Bool.eq_false_iff.mpr hc, ih]

theorem dropWhile_append_ws (w : List Char) (hw : ∀ c ∈ w, isWS c = true) :
    ∀ s : List Char,
      (s ++ w).dropWhile (fun d => !isWS d) = s.dropWhile (fun d => !isWS d) ++ w := by
  intro s
  induction s with
  | nil =>
    cases w with
    | nil => rfl
    | cons x w => simp [List.dropWhile_cons, hw x (List.mem_cons_self x w)]
  | cons c s ih =>
    rw [List.cons_append, List.dropWhile_cons, List.dropWhile_cons]
    by_cases hc : isWS c = true
    · simp [hc]
    · simp [hc, ih]

theorem splitWS_append_ws (w : List Char) (hw : ∀ c ∈ w, isWS c = true) :
    ∀ l : List Char, splitWS (l ++ w) = splitWS l := by
  have main : ∀ (n : Nat) (l : List Char), l.length ≤ n →
      splitWS (l ++ w) = splitWS l := by
    intro n
    induction n with
    | zero =>
      intro l hl
      rw [List.eq_nil_of_length_eq_zero (Nat.le_zero.mp hl)]
      rw [List.nil_append, splitWS_nil]
      exact (splitWS_eq_nil_iff w).mpr hw
    | succ n ih =>
      intro l hl
      cases l with
      | nil =>
        rw [List.nil_append, splitWS_nil]
        exact (splitWS_eq_nil_iff w).mpr hw
      | cons c s =>
        rw [List.length_cons] at hl
        by_cases hc : isWS c = true
        · rw [List.cons_append, splitWS_cons, if_pos hc, splitWS_cons, if_pos hc]
          exact ih s (Nat.le_of_succ_le_succ hl)
        · rw [List.cons_append, splitWS_cons, if_neg hc, splitWS_cons, if_neg hc,
            takeWhile_append_ws w hw, dropWhile_append_ws w hw]
          have h2 := length_dropWhile_le (fun d => !isWS d) s
          rw [ih (s.dropWhile (fun d => !isWS d)) (by omega)]
  intro l
  exact main l.length l (Nat.le_refl _)

theorem trim_decomp (l : List Char) :
    ∃ w, l = (l.reverse.dropWhile isWS).reverse ++ w ∧ ∀ c ∈ w, isWS c = true := by
  refine ⟨(l.reverse.takeWhile isWS).reverse, ?_, ?_⟩
  · rw [← List.reverse_append, List.takeWhile_append_dropWhile, List.reverse_reverse]
  · intro c hc
    rw [List.mem_reverse] at hc
    exact List.mem_takeWhile_imp hc

theorem splitWS_trimWS (s : List Char) : splitWS (trimWS s) = splitWS s := by
  obtain ⟨w, hdecomp, hw⟩ := trim_decomp (s.dropWhile isWS)
  have h2 : trimWS s ++ w = s.dropWhile isWS := hdecomp.symm
  calc splitWS (trimWS s) = splitWS (trimWS s ++ w) := (splitWS_append_ws w hw _).symm
    _ = splitWS (s.dropWhile isWS) := by rw [h2]
    _ = splitWS s := splitWS_dropWhile s

theorem splitWS_length_le_one (l : List Char) (hl : ∀ c ∈ l, isWS c = false) :
    (splitWS l).length ≤ 1 := by
  cases l with
  | nil => rw [splitWS_nil]; exact Nat.zero_le 1
  | cons c s =>
    rw [splitWS_cons, if_neg (by simp [hl c (List.mem_cons_self c s)])]
    have h2 : s.dropWhile (fun d => !isWS d) = [] :=
      List.dropWhile_eq_nil_iff.mpr fun x hx => by simp [hl x (List.mem_cons_of_mem c hx)]
    rw [h2, splitWS_nil]
    exact Nat.le_refl 1

theorem exists_ws_of_two_tokens (s : List Char) (h : 1 < (splitWS s).length) :
    ∃ c ∈ trimWS s, isWS c = true := by
  by_contra hcon
  push_neg at hcon
  have h2 : ∀ c ∈ trimWS s, isWS c = false := fun c hc =>
    Bool.eq_false_iff.mpr (hcon c hc)
  have h3 := splitWS_length_le_one (trimWS s) h2
  rw [splitWS_trimWS] at h3
  omega

/-! ## Claim C2: what search returns

SQLite's default `LIKE` is case-insensitive on ASCII letters, so the
claim's "contains `term` as a substring" is wrong as stated; the correct
characterisation (for terms without the `LIKE` metacharacters) is
substring containment up to ASCII case. -/

/-- Search terms free of the `LIKE` metacharacters (`%` and the
single-character wildcard), for which `%term%` means substring search. -/
def noWildcard (t : List Char) : Bool :=
  t.all (fun c => !(c == '%') && !(c == '_'))

theorem noWildcard_iff (t : List Char) :
    noWildcard t = true ↔ ∀ c ∈ t, c ≠ '%' ∧ c ≠ '_' := by
  simp [noWildcard, List.all_eq_true]

theorem likeMatch_nil (s : List Char) : likeMatch [] s = s.isEmpty := by
  simp [likeMatch]

theorem likeMatch_pct_iff (p : List Char) (s : List Char) :
    likeMatch ('%' :: p) s = true ↔ ∃ s2, s2 <:+ s ∧ likeMatch p s2 = true := by
  simp [likeMatch, List.any_eq_true, List.mem_tails]

theorem likeMatch_pct_nil (s : List Char) : likeMatch ['%'] s = true := by
  rw [likeMatch_pct_iff]
  exact ⟨[], List.nil_suffix, by simp [likeMatch]⟩

theorem likeMatch_noWild_pct : ∀ (t : List Char), (∀ c ∈ t, c ≠ '%' ∧ c ≠ '_') →
    ∀ s, (likeMatch (t ++ ['%']) s = true ↔ t.map lowerC <+: s.map lowerC) := by
  intro t
  induction t with
  | nil =>
    intro _ s
    simp [likeMatch_pct_nil s]
  | cons c t ih =>
    intro ht s
    have hc := ht c (List.mem_cons_self c t)
    have ht2 : ∀ d ∈ t, d ≠ '%' ∧ d ≠ '_' := fun d hd => ht d (List.mem_cons_of_mem c hd)
    cases s with
    | nil =>
      simp [likeMatch, hc.1]
    | cons d s =>
      rw [show likeMatch ((c :: t) ++ ['%']) (d :: s) =
        ((lowerC c == lowerC d) && likeMatch (t ++ ['%']) s) from by
          simp [likeMatch, hc.1, hc.2]]
      rw [List.map_cons, List.map_cons, List.cons_prefix_cons, Bool.and_eq_true, beq_iff_eq]
      exact and_congr Iff.rfl (ih ht2 s)

theorem suffix_map_inv {u s : List Char} (f : Char → Char) (h : u <:+ s.map f) :
    ∃ v, v <:+ s ∧ u = v.map f := by
  obtain ⟨w, hw⟩ := h
  obtain ⟨l1, l2, rfl, _, h2⟩ := List.map_eq_append_iff.mp hw.symm
  exact ⟨l2, ⟨l1, rfl⟩, h2.symm⟩

/-- The `%term%` pattern of `search_items`, for a metacharacter-free term,
matches exactly the strings containing `term` up to ASCII case. -/
theorem likeMatch_contains (t : List Char) (ht : ∀ c ∈ t, c ≠ '%' ∧ c ≠ '_')
    (s : List Char) :
    likeMatch ('%' :: (t ++ ['%'])) s = true ↔ t.map lowerC <:+: s.map lowerC := by
  rw [likeMatch_pct_iff]
  constructor
  · rintro ⟨s2, hs2, hm⟩
    rw [likeMatch_noWild_pct t ht s2] at hm
    exact List.infix_iff_prefix_suffix.mpr ⟨s2.map lowerC, hm, List.IsSuffix.map lowerC hs2⟩
  · intro h
    obtain ⟨u, hu, hus⟩ := List.infix_iff_prefix_suffix.mp h
    obtain ⟨v, hv, rfl⟩ := suffix_map_inv lowerC hus
    exact ⟨v, hv, (likeMatch_noWild_pct t ht v).mpr hu⟩

/-- C2 counterexample: with default `LIKE` semantics, `search("hammer")`
returns the item named `"Hammer"` even though `"hammer"` is not a
substring of its name (and its description is NULL), so "exactly the items
whose name or description contains `term` as a substring" is false. -/
theorem search_substring_cex :
    (Item.mk 1 "Hammer" none none 3 0 0) ∈
      search_items (DB.mk [Item.mk 1 "Hammer" none none 3 0 0] 2) "hammer" ∧
    ¬ ("hammer".data <:+: "Hammer".data) ∧
    (Item.mk 1 "Hammer" none none 3 0 0).description = none := by
  decide

/-- C2 (amended): for search terms free of the `LIKE` metacharacters `%`
and the single-character wildcard, `search_items` returns exactly the
items whose name or (non-NULL) description contains the term as a
substring *up to ASCII case*; a NULL description never matches. -/
theorem search_exactly_substring_ci (db : DB) (term : String) (it : Item)
    (ht : noWildcard term.data = true) :
    it ∈ search_items db term ↔ it ∈ db.items ∧
      (term.data.map lowerC <:+: it.name.data.map lowerC ∨
       ∃ d, it.description = some d ∧ term.data.map lowerC <:+: d.data.map lowerC) := by
  rw [noWildcard_iff] at ht
  rw [search_items, List.mem_filter]
  refine and_congr Iff.rfl ?_
  rw [rowMatches, Bool.or_eq_true, likePattern]
  refine or_congr (likeMatch_contains term.data ht it.name.data) ?_
  cases hdesc : it.description with
  | none => simp
  | some d =>
    constructor
    · intro h
      exact ⟨d, rfl, (likeMatch_contains term.data ht d.data).mp h⟩
    · rintro ⟨d2, heq, h⟩
      obtain rfl : d2 = d := by injection heq with h2; exact h2.symm
      exact (likeMatch_contains term.data ht d2.data).mpr h

/-- C2 witness: the amended characterisation on a concrete store. -/
theorem search_exactly_substring_ci_witness :
    (Item.mk 1 "Hammer" none none 3 0 0) ∈
        search_items (DB.mk [Item.mk 1 "Hammer" none none 3 0 0] 2) "ham" ↔
      (Item.mk 1 "Hammer" none none 3 0 0) ∈
        (DB.mk [Item.mk 1 "Hammer" none none 3 0 0] 2).items ∧
      ("ham".data.map lowerC <:+: "Hammer".data.map lowerC ∨
       ∃ d, (Item.mk 1 "Hammer" none none 3 0 0).description = some d ∧
         "ham".data.map lowerC <:+: d.data.map lowerC) :=
  search_exactly_substring_ci (DB.mk [Item.mk 1 "Hammer" none none 3 0 0] 2) "ham"
    (Item.mk 1 "Hammer" none none 3 0 0) (by decide)

/-- C6 witness: the quantity update on a concrete one-row store. -/
theorem update_quantity_get_witness :
    ∃ it1, get_item (update_item (DB.mk [Item.mk 1 "A" none none 1 4 4] 2)
        1 [("quantity", FieldVal.vInt 5)] 9).1 1 = some it1 ∧
      it1.quantity = 5 ∧ (Item.mk 1 "A" none none 1 4 4).last_modified < it1.last_modified :=
  update_quantity_get (DB.mk [Item.mk 1 "A" none none 1 4 4] 2) 1 9
    (Item.mk 1 "A" none none 1 4 4) (by decide) (by decide)

/-! ## Claim C8: the shell's add command -/

/-- C8: a line with no tokens (in particular the empty line — `cmd.Cmd`
strips the argument, so a whitespace-only input arrives empty) reports an
error and performs no write; any other line adds exactly one item whose
quantity is the `int()` parse of `args[3]` when that token is present and
parses, and 1 when it is absent or fails to parse. -/
theorem do_add_spec (db : DB) (now : Nat) (arg : String) :
    (splitWS arg.data = [] → do_add db arg now = (db, none)) ∧
    (splitWS arg.data ≠ [] →
      ∃ a0 rest q, splitWSMax 3 arg.data = a0 :: rest ∧
        do_add db arg now =
          ({ items := db.items ++ [Item.mk db.nextId (String.mk a0)
              ((rest.get? 0).map String.mk) ((rest.get? 1).map String.mk) q now now],
             nextId := db.nextId + 1 }, some db.nextId) ∧
        ((rest.get? 2 = none ∧ q = 1) ∨
         ∃ s, rest.get? 2 = some s ∧
           ((∃ m, parsePyInt s = some m ∧ q = m) ∨
            (parsePyInt s = none ∧ q = 1)))) := by
  constructor
  · intro h
    have h2 : splitWSMax 3 arg.data = [] :=
      (splitWSMax_eq_nil_iff arg.data 3).mpr ((splitWS_eq_nil_iff arg.data).mp h)
    rw [do_add, h2]
  · intro h
    have h2 : splitWSMax 3 arg.data ≠ [] := fun hc =>
      h ((splitWS_eq_nil_iff arg.data).mpr ((splitWSMax_eq_nil_iff arg.data 3).mp hc))
    obtain ⟨a0, rest, hsplit⟩ := List.exists_cons_of_ne_nil h2
    refine ⟨a0, rest, qtyArg (rest.get? 2), hsplit, ?_, ?_⟩
    · rw [do_add, hsplit]
      rfl
    · cases hq : rest.get? 2 with
      | none => exact Or.inl ⟨rfl, rfl⟩
      | some sq =>
        refine Or.inr ⟨sq, rfl, ?_⟩
        cases hp : parsePyInt sq with
        | some m => exact Or.inl ⟨m, rfl, by simp [qtyArg, hp]⟩
        | none => exact Or.inr ⟨rfl, by simp [qtyArg, hp]⟩

/-- C8 witness: the error branch on the empty line and the add branch on
`"x y z 9"`. -/
theorem do_add_spec_witness :
    do_add initDB "" 3 = (initDB, none) ∧
    (∃ a0 rest q, splitWSMax 3 ("x y z 9" : String).data = a0 :: rest ∧
      do_add initDB "x y z 9" 3 =
        ({ items := initDB.items ++ [Item.mk initDB.nextId (String.mk a0)
            ((rest.get? 0).map String.mk) ((rest.get? 1).map String.mk) q 3 3],
           nextId := initDB.nextId + 1 }, some initDB.nextId) ∧
      ((rest.get? 2 = none ∧ q = 1) ∨
       ∃ s, rest.get? 2 = some s ∧
         ((∃ m, parsePyInt s = some m ∧ q = m) ∨
          (parsePyInt s = none ∧ q = 1)))) :=
  ⟨(do_add_spec initDB 3 "").1
      (by rw [show ("" : String).data = ([] : List Char) from rfl, splitWS_nil]),
   (do_add_spec initDB 3 "x y z 9").2
      (by
        rw [show ("x y z 9" : String).data = ['x', ' ', 'y', ' ', 'z', ' ', '9'] from rfl]
        intro hc
        rw [splitWS_eq_nil_iff] at hc
        exact absurd (hc 'x' (List.mem_cons_self _ _)) (by decide))⟩

/-! ## Claim C10: long add lines -/

/-- C10: on a line of more than four whitespace-separated tokens,
`split(maxsplit=3)` makes the whole remainder of the line the quantity
token; the remainder contains whitespace, so `int()` fails and the stored
quantity is 1, while the description and location are exactly the second
and third tokens. -/
theorem do_add_long_line (db : DB) (now : Nat) (arg : String)
    (t1 t2 t3 t4 t5 : List Char) (ts : List (List Char))
    (h : splitWS arg.data = t1 :: t2 :: t3 :: t4 :: t5 :: ts) :
    ∃ r, splitWSMax 3 arg.data = [t1, t2, t3, r] ∧ r <:+ arg.data ∧
      splitWS r = t4 :: t5 :: ts ∧ parsePyInt r = none ∧
      do_add db arg now =
        ({ items := db.items ++ [Item.mk db.nextId (String.mk t1) (some (String.mk t2))
            (some (String.mk t3)) 1 now now],
           nextId := db.nextId + 1 }, some db.nextId) := by
  obtain ⟨r1, hr1s, hr1, hmax3⟩ := split_head arg.data t1 _ 2 h
  obtain ⟨r2, hr2s, hr2, hmax2⟩ := split_head r1 t2 _ 1 hr1
  obtain ⟨r3, hr3s, hr3, hmax1⟩ := split_head r2 t3 _ 0 hr2
  obtain ⟨r, c, rr, hrc, hcws, hrs, hmax0, hrsplit⟩ := splitWSMax_zero_spec r3 t4 _ hr3
  have hsfx : r <:+ arg.data := hrs.trans (hr3s.trans (hr2s.trans hr1s))
  have hparse : parsePyInt r = none :=
    parsePyInt_eq_none_of_ws r (exists_ws_of_two_tokens r (by rw [hrsplit]; simp))
  have hmax : splitWSMax 3 arg.data = [t1, t2, t3, r] := by
    rw [hmax3, hmax2, hmax1, hmax0]
  refine ⟨r, hmax, hsfx, hrsplit, hparse, ?_⟩
  rw [do_add, hmax]
  simp [add_item, qtyArg, hparse]

/-- C10 witness: the five-token line `"a b c 4 5"`. -/
theorem do_add_long_line_witness :
    ∃ r, splitWSMax 3 ("a b c 4 5" : String).data = [['a'], ['b'], ['c'], r] ∧
      r <:+ ("a b c 4 5" : String).data ∧
      splitWS r = ['4'] :: ['5'] :: [] ∧ parsePyInt r = none ∧
      do_add initDB "a b c 4 5" 3 =
        ({ items := initDB.items ++ [Item.mk initDB.nextId (String.mk ['a'])
            (some (String.mk ['b'])) (some (String.mk ['c'])) 1 3 3],
           nextId := initDB.nextId + 1 }, some initDB.nextId) :=
  do_add_long_line initDB 3 "a b c 4 5" ['a'] ['b'] ['c'] ['4'] ['5'] []
    (by
      rw [show ("a b c 4 5" : String).data =
        ['a', ' ', 'b', ' ', 'c', ' ', '4', ' ', '5'] from rfl]
      simp [splitWS_cons, splitWS_nil, isWS])

end Inventory
